import Mathlib

/-!
# Verification of `src/utils/chunker.py` (`TextChunker`)

Shallow embedding of the text-chunking utilities.  Python strings are
modelled as lists of characters (`PyStr`); the tiktoken encoding object is
modelled as an abstract pair of `encode`/`decode` functions, since the
chunking logic only ever consumes the token list's length and contiguous
slices of it.  The token-walk `while` loop of `chunk_text` is embedded as a
fuel-indexed recursion `chunkRangesGo` producing the `(start_idx, end_idx)`
pairs of the loop; the fuel (`total_tokens`) is shown sufficient whenever
`chunk_overlap < chunk_size` by the exact chunk-count theorem.
-/

/-- A Python `str`, modelled as its list of characters. -/
abbrev PyStr := List Char

/-- Convenience: the character list of a Lean string literal. -/
def pyStr (s : String) : PyStr := s.data

/-- ASCII whitespace characters: the characters Python's `str.strip()`
strips by default (restricted to the ASCII range, which covers all inputs
appearing in this development). -/
def isPyWS (c : Char) : Bool :=
  c = ' ' || c = '\t' || c = '\n' || c = '\r' || c = '\x0b' || c = '\x0c'

/-- Model of Python `text.strip()`: remove leading and trailing whitespace. -/
def pyStrip (s : PyStr) : PyStr :=
  ((s.dropWhile isPyWS).reverse.dropWhile isPyWS).reverse

/-- Python `l[a:b]` on a token list (for non-negative indices). -/
def listSlice (l : List Nat) (a b : Nat) : List Nat :=
  (l.drop a).take (b - a)

/-- Abstract model of a tiktoken encoding object: `self.encoding.encode`
and `self.encoding.decode`.  The chunker treats both as black boxes. -/
structure Encoding where
  encode : PyStr → List Nat
  decode : List Nat → PyStr

/-- The `TextChunker` object: the three attributes set by `__init__`
(`self.chunk_size`, `self.chunk_overlap`, `self.encoding`). -/
structure TextChunker where
  chunk_size : Nat
  chunk_overlap : Nat
  encoding : Encoding

/-- `TextChunker.__init__`: stores the configuration unchanged.  The Python
constructor performs NO validation of `chunk_size`/`chunk_overlap` (it only
stores them and resolves the encoding name via `tiktoken.get_encoding`,
modelled here by passing the resolved encoding directly). -/
def TextChunker.init (chunk_size chunk_overlap : Nat) (encoding : Encoding) :
    TextChunker :=
  { chunk_size := chunk_size, chunk_overlap := chunk_overlap, encoding := encoding }

/-- The `while start_idx < total_tokens` loop of `chunk_text`, returning the
list of `(start_idx, end_idx)` pairs in iteration order.  Each iteration
computes `end_idx = min (start_idx + chunk_size) total`, emits the pair,
stops if `end_idx = total`, and otherwise continues from
`end_idx - chunk_overlap`.  `fuel` bounds the number of iterations; the
caller passes `total`, which the count theorem shows is sufficient whenever
`chunk_overlap < chunk_size`. -/
def chunkRangesGo (size ov total : Nat) : Nat → Nat → List (Nat × Nat)
  | 0, _ => []
  | fuel + 1, start =>
    if start < total then
      let endIdx := min (start + size) total
      if endIdx = total then
        [(start, endIdx)]
      else
        (start, endIdx) :: chunkRangesGo size ov total fuel (endIdx - ov)
    else []

/-- The full token-range walk of `chunk_text`, started at `start_idx = 0`. -/
def chunkRanges (size ov total : Nat) : List (Nat × Nat) :=
  chunkRangesGo size ov total total 0

/-- `TextChunker.chunk_text`: returns `[]` for empty or whitespace-only
input; returns `[text]` unchanged when the token count fits in one chunk;
otherwise decodes each token slice of the sliding-window walk. -/
def TextChunker.chunk_text (c : TextChunker) (text : PyStr) : List PyStr :=
  if text = [] ∨ pyStrip text = [] then []
  else
    let tokens := c.encoding.encode text
    let total_tokens := tokens.length
    if total_tokens ≤ c.chunk_size then [text]
    else
      (chunkRanges c.chunk_size c.chunk_overlap total_tokens).map
        (fun r => c.encoding.decode (listSlice tokens r.1 r.2))

/-- A record produced by `chunk_documents`:
`{"text": …, "doc_id": …, "chunk_id": …, "total_chunks": …}`. -/
structure ChunkRecord where
  text : PyStr
  doc_id : Nat
  chunk_id : Nat
  total_chunks : Nat
deriving DecidableEq

/-- `TextChunker.chunk_documents`: the Python double `for` loop appending
one record per chunk to `chunked_docs`, embedded as nested left folds over
the `enumerate`d documents and chunks. -/
def TextChunker.chunk_documents (c : TextChunker) (documents : List PyStr) :
    List ChunkRecord :=
  documents.enum.foldl
    (fun chunked_docs p =>
      let chunks := c.chunk_text p.2
      chunks.enum.foldl
        (fun acc q =>
          acc ++ [{ text := q.2, doc_id := p.1, chunk_id := q.1,
                    total_chunks := chunks.length }])
        chunked_docs)
    []

/-- Python `text.split(separator)` on character lists: scan left to right;
whenever the separator is a prefix of the remainder, cut there and skip it.
`acc` holds the current part reversed; `fuel` bounds the scan (the caller
passes `text.length + 1`, enough because every step consumes at least one
character when the separator is non-empty).  Python raises `ValueError` for
an empty separator; that case is diverted before this loop. -/
def pySplitGo (sep : PyStr) : Nat → PyStr → PyStr → List PyStr
  | 0, rest, acc => [acc.reverse ++ rest]
  | fuel + 1, s, acc =>
    match s with
    | [] => [acc.reverse]
    | c :: rest =>
      if sep.isPrefixOf (c :: rest) then
        acc.reverse :: pySplitGo sep fuel ((c :: rest).drop sep.length) []
      else
        pySplitGo sep fuel rest (c :: acc)

/-- Python `text.split(separator)` for a non-empty separator (`split` with
an empty separator raises in Python and never occurs in this code; it is
modelled as the trivial split). -/
def pySplit (text sep : PyStr) : List PyStr :=
  if sep = [] then [text] else pySplitGo sep (text.length + 1) text []

/-- One step of the accumulation loop of `simple_split`: `st.1` is `chunks`,
`st.2` is `current_chunk`.  A part joins the current chunk when
`len(current_chunk) + len(part) + len(separator) <= max_length`; otherwise
the current chunk (if non-empty) is emitted and the part starts a new one. -/
def simpleStep (max_length : Int) (separator : PyStr)
    (st : List PyStr × PyStr) (part : PyStr) : List PyStr × PyStr :=
  if (st.2.length + part.length + separator.length : Int) ≤ max_length then
    if st.2 ≠ [] then (st.1, st.2 ++ separator ++ part) else (st.1, part)
  else
    if st.2 ≠ [] then (st.1 ++ [st.2], part) else (st.1, part)

/-- `TextChunker.simple_split` (a static method): split by separator, then
greedily re-accumulate parts up to `max_length` characters, flushing the
final non-empty accumulator. -/
def simple_split (text : PyStr) (max_length : Int) (separator : PyStr) :
    List PyStr :=
  if text = [] then []
  else
    let parts := pySplit text separator
    let res := parts.foldl (simpleStep max_length separator) ([], [])
    if res.2 ≠ [] then res.1 ++ [res.2] else res.1

/-! ## Structural lemmas about the token-range walk -/

/-- Normalised unfolding of one loop iteration when the loop guard holds. -/
theorem chunkRangesGo_succ (size ov total n start : Nat) (h : start < total) :
    chunkRangesGo size ov total (n + 1) start =
      if start + size < total then
        (start, start + size) :: chunkRangesGo size ov total n (start + size - ov)
      else
        [(start, total)] := by
  simp only [chunkRangesGo, if_pos h]
  by_cases hlt : start + size < total
  · have hmin : min (start + size) total = start + size := by omega
    have hne : ¬ (start + size = total) := by omega
    simp [hmin, hne, hlt]
  · have hmin : min (start + size) total = total := by omega
    simp [hmin, hlt]

/-- Every emitted range has `end_idx ≤ start_idx + chunk_size`
(no precondition on the configuration is needed). -/
theorem chunkRangesGo_snd_le (size ov total : Nat) :
    ∀ fuel start r, r ∈ chunkRangesGo size ov total fuel start →
      r.2 ≤ r.1 + size := by
  intro fuel
  induction fuel with
  | zero => intro start r h; simp [chunkRangesGo] at h
  | succ n ih =>
    intro start r h
    by_cases hs : start < total
    · rw [chunkRangesGo_succ size ov total n start hs] at h
      by_cases hlt : start + size < total
      · rw [if_pos hlt] at h
        rcases List.mem_cons.mp h with h | h
        · subst h; exact Nat.le_refl _
        · exact ih _ r h
      · rw [if_neg hlt] at h
        simp only [List.mem_singleton] at h
        subst h
        simp only []
        omega
    · simp [chunkRangesGo, hs] at h

/-- The walk is non-empty as soon as the loop guard holds and fuel remains. -/
theorem chunkRangesGo_ne_nil (size ov total n start : Nat) (h : start < total) :
    chunkRangesGo size ov total (n + 1) start ≠ [] := by
  rw [chunkRangesGo_succ size ov total n start h]
  by_cases hlt : start + size < total
  · simp [hlt]
  · simp [hlt]

/-- The first emitted range starts at the current `start_idx`. -/
theorem chunkRangesGo_head (size ov total n start : Nat) (h : start < total) :
    ∀ r, (chunkRangesGo size ov total (n + 1) start).head? = some r →
      r.1 = start := by
  intro r hr
  rw [chunkRangesGo_succ size ov total n start h] at hr
  by_cases hlt : start + size < total
  · rw [if_pos hlt] at hr
    simp only [List.head?_cons, Option.some.injEq] at hr
    subst hr; rfl
  · rw [if_neg hlt] at hr
    simp only [List.head?_cons, Option.some.injEq] at hr
    subst hr; rfl

/-- Exact iteration count of the walk: with `ov < size`, starting the walk at
`start` with `start + ov < total` and at least `total - start` fuel produces
exactly `⌈(total - start - ov) / (size - ov)⌉` ranges.  In particular the
fuel `total` used by `chunkRanges` never runs out. -/
theorem chunkRangesGo_length (size ov total : Nat) (hov : ov < size) :
    ∀ fuel start, start + ov < total → total - start ≤ fuel →
      (chunkRangesGo size ov total fuel start).length
        = (total - start - ov + (size - ov) - 1) / (size - ov) := by
  intro fuel
  induction fuel with
  | zero => intro start h1 h2; exact absurd h2 (by omega)
  | succ n ih =>
    intro start h1 h2
    have hs : start < total := by omega
    rw [chunkRangesGo_succ size ov total n start hs]
    by_cases hlt : start + size < total
    · rw [if_pos hlt, List.length_cons,
        ih (start + size - ov) (by omega) (by omega)]
      have h3 : total - start - ov + (size - ov) - 1
          = (total - (start + size - ov) - ov + (size - ov) - 1) + (size - ov) := by
        omega
      rw [h3, Nat.add_div_right _ (by omega)]
    · rw [if_neg hlt, List.length_singleton]
      symm
      exact Nat.div_eq_of_lt_le (by omega) (by simp [Nat.succ_mul]; omega)

/-- The final emitted range always ends exactly at `total`. -/
theorem chunkRangesGo_getLast (size ov total : Nat) (hov : ov < size) :
    ∀ fuel start, start + ov < total → total - start ≤ fuel →
      ∀ r, (chunkRangesGo size ov total fuel start).getLast? = some r →
        r.2 = total := by
  intro fuel
  induction fuel with
  | zero => intro start h1 h2 r hr; exact absurd h2 (by omega)
  | succ n ih =>
    intro start h1 h2 r hr
    have hs : start < total := by omega
    rw [chunkRangesGo_succ size ov total n start hs] at hr
    by_cases hlt : start + size < total
    · rw [if_pos hlt] at hr
      have hne : chunkRangesGo size ov total n (start + size - ov) ≠ [] := by
        obtain ⟨m, hm⟩ : ∃ m, n = m + 1 := ⟨n - 1, by omega⟩
        rw [hm]
        exact chunkRangesGo_ne_nil size ov total m _ (by omega)
      obtain ⟨y, l', hl⟩ := List.exists_cons_of_ne_nil hne
      rw [hl, List.getLast?_cons_cons] at hr
      exact ih (start + size - ov) (by omega) (by omega) r (by rw [hl]; exact hr)
    · rw [if_neg hlt] at hr
      simp only [List.getLast?_singleton, Option.some.injEq] at hr
      subst hr; rfl

/-- Memberwise invariant of the walk: every range is non-degenerate, in fact
longer than the overlap, and ends within the text. -/
theorem chunkRangesGo_mem_inv (size ov total : Nat) (hov : ov < size) :
    ∀ fuel start, start + ov < total → total - start ≤ fuel →
      ∀ r ∈ chunkRangesGo size ov total fuel start,
        r.1 + ov < r.2 ∧ r.2 ≤ total := by
  intro fuel
  induction fuel with
  | zero => intro start h1 h2 r hr; exact absurd h2 (by omega)
  | succ n ih =>
    intro start h1 h2 r hr
    have hs : start < total := by omega
    rw [chunkRangesGo_succ size ov total n start hs] at hr
    by_cases hlt : start + size < total
    · rw [if_pos hlt] at hr
      rcases List.mem_cons.mp hr with h | h
      · subst h
        exact ⟨by simp; omega, by simp; omega⟩
      · exact ih (start + size - ov) (by omega) (by omega) r h
    · rw [if_neg hlt] at hr
      simp only [List.mem_singleton] at hr
      subst hr
      exact ⟨by simp; omega, by simp⟩

/-- Consecutive ranges of the walk: the next range starts exactly
`chunk_overlap` tokens before the end of the previous one. -/
theorem chunkRangesGo_consec (size ov total : Nat) (hov : ov < size) :
    ∀ fuel start, start + ov < total → total - start ≤ fuel →
      ∀ i r r', (chunkRangesGo size ov total fuel start).get? i = some r →
        (chunkRangesGo size ov total fuel start).get? (i + 1) = some r' →
        r'.1 + ov = r.2 := by
  intro fuel
  induction fuel with
  | zero => intro start h1 h2 i r r' hr hr'; exact absurd h2 (by omega)
  | succ n ih =>
    intro start h1 h2 i r r' hr hr'
    have hs : start < total := by omega
    rw [chunkRangesGo_succ size ov total n start hs] at hr hr'
    by_cases hlt : start + size < total
    · rw [if_pos hlt] at hr hr'
      match i with
      | 0 =>
        rw [List.get?_cons_zero] at hr
        injection hr with hr
        rw [List.get?_cons_succ, List.get?_zero] at hr'
        obtain ⟨m, hm⟩ : ∃ m, n = m + 1 := ⟨n - 1, by omega⟩
        rw [hm] at hr'
        have h4 := chunkRangesGo_head size ov total m (start + size - ov)
          (by omega) r' hr'
        subst hr
        simp only []
        omega
      | i + 1 =>
        rw [List.get?_cons_succ] at hr hr'
        exact ih (start + size - ov) (by omega) (by omega) i r r' hr hr'
    · rw [if_neg hlt] at hr hr'
      match i with
      | 0 => simp at hr'
      | i + 1 => simp at hr'

/-- Coverage of the walk: every token index from the current start to the end
of the text lies inside at least one emitted range. -/
theorem chunkRangesGo_cover (size ov total : Nat) (hov : ov < size) :
    ∀ fuel start, start + ov < total → total - start ≤ fuel →
      ∀ j, start ≤ j → j < total →
        ∃ r ∈ chunkRangesGo size ov total fuel start, r.1 ≤ j ∧ j < r.2 := by
  intro fuel
  induction fuel with
  | zero => intro start h1 h2 j hj1 hj2; exact absurd h2 (by omega)
  | succ n ih =>
    intro start h1 h2 j hj1 hj2
    have hs : start < total := by omega
    rw [chunkRangesGo_succ size ov total n start hs]
    by_cases hlt : start + size < total
    · rw [if_pos hlt]
      by_cases hj : j < start + size
      · exact ⟨(start, start + size), List.mem_cons_self _ _, hj1, hj⟩
      · obtain ⟨r, hrmem, hr1, hr2⟩ :=
          ih (start + size - ov) (by omega) (by omega) j (by omega) hj2
        exact ⟨r, List.mem_cons_of_mem _ hrmem, hr1, hr2⟩
    · rw [if_neg hlt]
      exact ⟨(start, total), List.mem_singleton_self _, hj1, hj2⟩

/-! ## Concrete encodings and chunkers used to instantiate the theorems -/

/-- A degenerate concrete encoding whose token count is always `n`:
enough to exercise the token-count driven control flow of `chunk_text`. -/
def encN (n : Nat) : Encoding :=
  { encode := fun _ => List.range n, decode := fun _ => [] }

/-- A chunker with `chunk_size = 5`, `chunk_overlap = 2` over a 7-token
encoding (its walk is `[(0, 5), (3, 7)]`). -/
def cW : TextChunker := TextChunker.init 5 2 (encN 7)

/-- A chunker with `chunk_size = 5`, `chunk_overlap = 2` over a 1-token
encoding (every non-blank text fits in a single chunk). -/
def c1W : TextChunker := TextChunker.init 5 2 (encN 1)

/-! ## Claim theorems -/

/-- C1: the claim says constructing a `TextChunker` with
`chunk_overlap >= chunk_size` fails fast with a configuration error.  The
code's `__init__` performs no such validation: constructing with
`chunk_size = 2, chunk_overlap = 2` succeeds and returns a chunker carrying
exactly that degenerate configuration (under which the `chunk_text` walk
makes no progress). -/
theorem init_accepts_degenerate_config :
    (TextChunker.init 2 2 (encN 1)).chunk_size = 2 ∧
      (TextChunker.init 2 2 (encN 1)).chunk_overlap = 2 := by
  exact ⟨rfl, rfl⟩

/-- C2: any non-empty, not whitespace-only text whose token count is at most
`chunk_size` is returned as the one-element list `[text]`, the input itself
unchanged (no decode/re-encode round trip). -/
theorem chunk_text_single_chunk (c : TextChunker) (text : PyStr)
    (hne : text ≠ []) (hws : pyStrip text ≠ [])
    (hfit : (c.encoding.encode text).length ≤ c.chunk_size) :
    c.chunk_text text = [text] := by
  simp only [TextChunker.chunk_text]
  rw [if_neg (not_or.mpr ⟨hne, hws⟩), if_pos hfit]

theorem chunk_text_single_chunk_witness :
    c1W.chunk_text (pyStr "a") = [pyStr "a"] :=
  chunk_text_single_chunk c1W (pyStr "a") (by decide) (by decide) (by decide)

/-- C3: with `0 ≤ chunk_overlap < chunk_size`, on any non-blank text whose
token count exceeds `chunk_size` the sliding-window loop terminates (the
fuel `total_tokens` suffices) and yields exactly
`⌈(total_tokens - chunk_overlap) / (chunk_size - chunk_overlap)⌉` chunks. -/
theorem chunk_text_count_formula (c : TextChunker) (text : PyStr)
    (hov : c.chunk_overlap < c.chunk_size)
    (hne : text ≠ []) (hws : pyStrip text ≠ [])
    (hbig : c.chunk_size < (c.encoding.encode text).length) :
    (c.chunk_text text).length =
      ((c.encoding.encode text).length - c.chunk_overlap
          + (c.chunk_size - c.chunk_overlap) - 1)
        / (c.chunk_size - c.chunk_overlap) := by
  simp only [TextChunker.chunk_text]
  rw [if_neg (not_or.mpr ⟨hne, hws⟩), if_neg (by omega), List.length_map]
  unfold chunkRanges
  have h := chunkRangesGo_length c.chunk_size c.chunk_overlap
    (c.encoding.encode text).length hov (c.encoding.encode text).length 0
    (by omega) (by omega)
  simpa using h

theorem chunk_text_count_formula_witness :
    (cW.chunk_text (pyStr "a")).length = 2 := by
  have h := chunk_text_count_formula cW (pyStr "a") (by decide) (by decide)
    (by decide) (by decide)
  rw [h]
  decide

/-- C4: with `0 ≤ chunk_overlap < chunk_size` and more than `chunk_size`
tokens, the walk's ranges leave no gaps: the first range starts at token 0,
each next range starts at or before the end of its predecessor, the last
range ends at `total_tokens`, and indeed every token index below
`total_tokens` lies in some range. -/
theorem chunk_ranges_no_gaps (size ov total : Nat) (hov : ov < size)
    (hbig : size < total) :
    (∀ r, (chunkRanges size ov total).head? = some r → r.1 = 0)
    ∧ (∀ i r r', (chunkRanges size ov total).get? i = some r →
        (chunkRanges size ov total).get? (i + 1) = some r' → r'.1 ≤ r.2)
    ∧ (∀ r, (chunkRanges size ov total).getLast? = some r → r.2 = total)
    ∧ (∀ j, j < total → ∃ r ∈ chunkRanges size ov total, r.1 ≤ j ∧ j < r.2) := by
  have h0 : 0 + ov < total := by omega
  have hf : total - 0 ≤ total := by omega
  refine ⟨?_, ?_, ?_, ?_⟩
  · intro r hr
    unfold chunkRanges at hr
    obtain ⟨m, hm⟩ : ∃ m, total = m + 1 := ⟨total - 1, by omega⟩
    rw [hm] at hr
    exact chunkRangesGo_head size ov (m + 1) m 0 (by omega) r hr
  · intro i r r' h1 h2
    have h := chunkRangesGo_consec size ov total hov total 0 h0 hf i r r' h1 h2
    omega
  · intro r hr
    exact chunkRangesGo_getLast size ov total hov total 0 h0 hf r hr
  · intro j hj
    exact chunkRangesGo_cover size ov total hov total 0 h0 hf j (Nat.zero_le _) hj

theorem chunk_ranges_no_gaps_witness :
    ((0, 5) : Nat × Nat).1 = 0
    ∧ ((3, 7) : Nat × Nat).1 ≤ ((0, 5) : Nat × Nat).2
    ∧ ((3, 7) : Nat × Nat).2 = 7
    ∧ ∃ r ∈ chunkRanges 5 2 7, r.1 ≤ 6 ∧ 6 < r.2 := by
  obtain ⟨a, b, c, d⟩ := chunk_ranges_no_gaps 5 2 7 (by decide) (by decide)
  exact ⟨a (0, 5) (by decide), b 0 (0, 5) (3, 7) (by decide) (by decide),
    c (3, 7) (by decide), d 6 (by decide)⟩

/-- C5: with `0 ≤ chunk_overlap < chunk_size`, every pair of consecutive
ranges of the walk overlaps in exactly `chunk_overlap` token indices: the
next range starts exactly `chunk_overlap` before the end of the previous
one, and both ranges are long enough to contain those `chunk_overlap`
indices (so the last `chunk_overlap` indices of `c[i]`'s range coincide
with the first `chunk_overlap` indices of `c[i+1]`'s range — for every
pair, the final one included). -/
theorem chunk_ranges_overlap_exact (size ov total : Nat) (hov : ov < size)
    (hbig : size < total) :
    ∀ i r r', (chunkRanges size ov total).get? i = some r →
      (chunkRanges size ov total).get? (i + 1) = some r' →
      r'.1 + ov = r.2 ∧ r.1 + ov ≤ r.2 ∧ r'.1 + ov ≤ r'.2 := by
  intro i r r' h1 h2
  have h0 : 0 + ov < total := by omega
  have hf : total - 0 ≤ total := by omega
  have hc := chunkRangesGo_consec size ov total hov total 0 h0 hf i r r' h1 h2
  have hm1 := chunkRangesGo_mem_inv size ov total hov total 0 h0 hf r
    (List.get?_mem h1)
  have hm2 := chunkRangesGo_mem_inv size ov total hov total 0 h0 hf r'
    (List.get?_mem h2)
  exact ⟨hc, by omega, by omega⟩

theorem chunk_ranges_overlap_exact_witness :
    ((3, 7) : Nat × Nat).1 + 2 = ((0, 5) : Nat × Nat).2
    ∧ ((0, 5) : Nat × Nat).1 + 2 ≤ ((0, 5) : Nat × Nat).2
    ∧ ((3, 7) : Nat × Nat).1 + 2 ≤ ((3, 7) : Nat × Nat).2 :=
  chunk_ranges_overlap_exact 5 2 7 (by decide) (by decide) 0 (0, 5) (3, 7)
    (by decide) (by decide)

/-- C6: every chunk's token range has length at most `chunk_size`: the walk
always emits `end_idx - start_idx ≤ chunk_size` (for any configuration and
any token count), and in the single-chunk branch the output is `[]` or the
whole text, which the branch guard limits to at most `chunk_size` tokens. -/
theorem chunk_size_bound (c : TextChunker) (text : PyStr) :
    (∀ r ∈ chunkRanges c.chunk_size c.chunk_overlap
        (c.encoding.encode text).length, r.2 - r.1 ≤ c.chunk_size)
    ∧ ((c.encoding.encode text).length ≤ c.chunk_size →
        c.chunk_text text = [] ∨ c.chunk_text text = [text]) := by
  constructor
  · intro r hr
    have h := chunkRangesGo_snd_le c.chunk_size c.chunk_overlap
      (c.encoding.encode text).length _ _ r hr
    omega
  · intro hfit
    by_cases hempty : text = [] ∨ pyStrip text = []
    · left
      simp only [TextChunker.chunk_text]
      rw [if_pos hempty]
    · right
      simp only [TextChunker.chunk_text]
      rw [if_neg hempty, if_pos hfit]

theorem chunk_size_bound_witness :
    (5 : Nat) - 0 ≤ 5
    ∧ (c1W.chunk_text (pyStr "a") = [] ∨
        c1W.chunk_text (pyStr "a") = [pyStr "a"]) :=
  ⟨(chunk_size_bound cW (pyStr "a")).1 (0, 5) (by decide),
    (chunk_size_bound c1W (pyStr "a")).2 (by decide)⟩

/-- C7: `chunk_text` returns `[]` exactly when the input is empty or
whitespace-only; in particular it does so on `""` and `"   "`, and every
other input produces at least one chunk. -/
theorem chunk_text_empty_iff (c : TextChunker) :
    (∀ text, c.chunk_text text = [] ↔ (text = [] ∨ pyStrip text = []))
    ∧ c.chunk_text (pyStr "") = [] ∧ c.chunk_text (pyStr "   ") = [] := by
  have key : ∀ text, c.chunk_text text = [] ↔ (text = [] ∨ pyStrip text = []) := by
    intro text
    constructor
    · intro h
      by_contra hc
      revert h
      simp only [TextChunker.chunk_text]
      rw [if_neg hc]
      by_cases hfit : (c.encoding.encode text).length ≤ c.chunk_size
      · rw [if_pos hfit]
        simp
      · rw [if_neg hfit]
        intro h
        rw [List.map_eq_nil_iff] at h
        unfold chunkRanges at h
        have h0 : 0 < (c.encoding.encode text).length := by omega
        obtain ⟨m, hm⟩ : ∃ m, (c.encoding.encode text).length = m + 1 :=
          ⟨(c.encoding.encode text).length - 1, by omega⟩
        rw [hm] at h
        exact chunkRangesGo_ne_nil c.chunk_size c.chunk_overlap (m + 1) m 0
          (by omega) h
    · intro h
      simp only [TextChunker.chunk_text]
      rw [if_pos h]
  exact ⟨key, (key _).mpr (Or.inl rfl), (key _).mpr (Or.inr (by decide))⟩

/-- Appending one mapped element per step in a left fold yields `map`. -/
theorem foldl_append_singleton {α β : Type} (f : α → β) :
    ∀ (l : List α) (acc : List β),
      l.foldl (fun a q => a ++ [f q]) acc = acc ++ l.map f := by
  intro l
  induction l with
  | nil => intro acc; simp
  | cons x xs ih =>
    intro acc
    simp only [List.foldl_cons, List.map_cons]
    rw [ih]
    simp

/-- The double fold of `chunk_documents`, generalised over the enumerated
document list and the accumulator. -/
theorem chunk_documents_go (c : TextChunker) :
    ∀ (l : List (Nat × PyStr)) (acc : List ChunkRecord),
      l.foldl
        (fun chunked_docs p =>
          (c.chunk_text p.2).enum.foldl
            (fun a q =>
              a ++ [{ text := q.2, doc_id := p.1, chunk_id := q.1,
                      total_chunks := (c.chunk_text p.2).length }]) chunked_docs)
        acc
      = acc ++ l.flatMap (fun p =>
          (c.chunk_text p.2).enum.map (fun q =>
            { text := q.2, doc_id := p.1, chunk_id := q.1,
              total_chunks := (c.chunk_text p.2).length })) := by
  intro l
  induction l with
  | nil => intro acc; simp
  | cons x xs ih =>
    intro acc
    simp only [List.foldl_cons, List.flatMap_cons]
    rw [foldl_append_singleton, ih, List.append_assoc]

/-- C8: `chunk_documents` is the in-order concatenation over the enumerated
documents of that document's enumerated chunks wrapped as records (so
documents whose `chunk_text` is empty contribute no records), and every
record points back into its source document: `doc_id` indexes the document,
`total_chunks` is that document's chunk count, `chunk_id < total_chunks`,
and `text` is chunk number `chunk_id` of that document. -/
theorem chunk_documents_records (c : TextChunker) (documents : List PyStr) :
    (c.chunk_documents documents =
      documents.enum.flatMap (fun p =>
        (c.chunk_text p.2).enum.map (fun q =>
          { text := q.2, doc_id := p.1, chunk_id := q.1,
            total_chunks := (c.chunk_text p.2).length })))
    ∧ ∀ record ∈ c.chunk_documents documents, ∃ d,
        documents.get? record.doc_id = some d
        ∧ record.total_chunks = (c.chunk_text d).length
        ∧ record.chunk_id < record.total_chunks
        ∧ (c.chunk_text d).get? record.chunk_id = some record.text := by
  have h1 : c.chunk_documents documents =
      documents.enum.flatMap (fun p =>
        (c.chunk_text p.2).enum.map (fun q =>
          { text := q.2, doc_id := p.1, chunk_id := q.1,
            total_chunks := (c.chunk_text p.2).length })) := by
    have h := chunk_documents_go c documents.enum []
    rw [List.nil_append] at h
    exact h
  refine ⟨h1, ?_⟩
  intro record hrec
  rw [h1] at hrec
  obtain ⟨p, hp, hmem⟩ := List.mem_flatMap.mp hrec
  obtain ⟨q, hq, hrec2⟩ := List.mem_map.mp hmem
  have hpd : documents.get? p.1 = some p.2 := by
    rw [List.get?_eq_getElem?]
    exact List.mem_enum_iff_getElem?.mp hp
  have hqd : (c.chunk_text p.2).get? q.1 = some q.2 := by
    rw [List.get?_eq_getElem?]
    exact List.mem_enum_iff_getElem?.mp hq
  obtain ⟨hlt, -⟩ := List.get?_eq_some.mp hqd
  subst hrec2
  exact ⟨p.2, hpd, rfl, hlt, hqd⟩

theorem chunk_documents_records_witness :
    ∃ d, [pyStr "A", pyStr ""].get? (0 : Nat) = some d
      ∧ (1 : Nat) = (c1W.chunk_text d).length
      ∧ (0 : Nat) < (1 : Nat)
      ∧ (c1W.chunk_text d).get? 0 = some (pyStr "A") :=
  (chunk_documents_records c1W [pyStr "A", pyStr ""]).2
    { text := pyStr "A", doc_id := 0, chunk_id := 0, total_chunks := 1 }
    (by decide)

/-- C9: the worked example of `simple_split`: splitting
`"ab\n\ncd\n\nefghij"` with `max_length = 5` and separator `"\n\n"` yields
`["ab", "cd", "efghij"]` — the last part exceeds `max_length` but is still
emitted whole as its own chunk. -/
theorem simple_split_worked_example :
    simple_split (pyStr "ab\n\ncd\n\nefghij") 5 (pyStr "\n\n")
      = [pyStr "ab", pyStr "cd", pyStr "efghij"] := by
  decide

/-- The accumulation loop of `simple_split` only ever emits non-empty
chunks: it preserves the invariant that every already-emitted chunk is
non-empty (emission is guarded by `if current_chunk:`). -/
theorem simpleStep_foldl_preserves (max_length : Int) (separator : PyStr) :
    ∀ (parts : List PyStr) (st : List PyStr × PyStr),
      (∀ x ∈ st.1, x ≠ []) →
      ∀ x ∈ (parts.foldl (simpleStep max_length separator) st).1, x ≠ [] := by
  intro parts
  induction parts with
  | nil => intro st h x hx; exact h x hx
  | cons p ps ih =>
    intro st h
    simp only [List.foldl_cons]
    apply ih
    unfold simpleStep
    by_cases h1 : ((st.2.length + p.length + separator.length : Int) ≤ max_length)
    · rw [if_pos h1]
      by_cases h2 : st.2 ≠ []
      · rw [if_pos h2]; exact h
      · rw [if_neg h2]; exact h
    · rw [if_neg h1]
      by_cases h2 : st.2 ≠ []
      · rw [if_pos h2]
        intro x hx
        rcases List.mem_append.mp hx with hx | hx
        · exact h x hx
        · rw [List.mem_singleton] at hx
          subst hx
          exact h2
      · rw [if_neg h2]; exact h

/-- C10: every string in the result of `simple_split` is non-empty,
whatever the input text, length bound and separator: an empty accumulator
is never emitted, even when the separator split produces empty parts. -/
theorem simple_split_chunks_ne_nil (text : PyStr) (max_length : Int)
    (separator : PyStr) :
    ∀ chunk ∈ simple_split text max_length separator, chunk ≠ [] := by
  intro chunk hc
  by_cases ht : text = []
  · simp [simple_split, ht] at hc
  · simp only [simple_split, if_neg ht] at hc
    by_cases h2 :
        ((pySplit text separator).foldl (simpleStep max_length separator)
          ([], [])).2 ≠ []
    · rw [if_pos h2] at hc
      rcases List.mem_append.mp hc with hx | hx
      · exact simpleStep_foldl_preserves max_length separator
          (pySplit text separator) ([], []) (by simp) chunk hx
      · rw [List.mem_singleton] at hx
        subst hx
        exact h2
    · rw [if_neg h2] at hc
      exact simpleStep_foldl_preserves max_length separator
        (pySplit text separator) ([], []) (by simp) chunk hc

theorem simple_split_chunks_ne_nil_witness : pyStr "ab" ≠ ([] : PyStr) :=
  simple_split_chunks_ne_nil (pyStr "ab") 5 (pyStr "\n\n") (pyStr "ab")
    (by decide)

theorem chunk_text_empty_iff_witness : c1W.chunk_text (pyStr "   ") = [] :=
  (chunk_text_empty_iff c1W).2.2
